import Mathlib

/-!
# Verification of the MAI engine tools

Shallow embedding of the three Python source files of `MAI_ENGINE_TOOLS`:

* `Png2Cm.py` — `write_cm_metadata`, `rle_encode`;
* `CM2Png.py` — `read_cm_metadata`, `rle_decode`;
* `ARC_MAI_PACK_UNPAK.py` — `ArcOpener.try_open`, `detect_file_type`,
  `check_placement`, `pack_files`.

Byte strings are modelled as `List Nat` (each element a byte value), Python
slices `b[i:j]` as `(l.drop i).take (j - i)` — both silently truncate at the
end of the buffer, exactly like Python slicing. Fallible operations
(`struct.unpack` on a short read, `bytes.decode('ascii')` on non-ASCII input)
return `Option`/explicit result values; a Python function that can return a
parsed value, return `None`, or raise an exception is modelled with the
three-valued `PyResult`.
-/

set_option autoImplicit false

namespace MaiTools

/-- Result of a Python routine that may return a value, return `None`
(a recoverable "not this format" rejection), or raise an exception
(`struct.error`, `UnicodeDecodeError`, `IndexError`). -/
inductive PyResult (α : Type) where
  | ok (a : α)
  | invalid
  | exn
  deriving Repr, DecidableEq

/-- Python `data[off:off+len]`: drop `off` bytes and take at most `len`;
silently truncates at the end of the buffer. Also models `file.read` of
`len` bytes after `seek(off)`. -/
def readBytes (f : List Nat) (off len : Nat) : List Nat :=
  (f.drop off).take len

/-! ## RunLengthCodec (`Png2Cm.rle_encode`, `CM2Png.rle_decode`) -/

/-- `CM2Png.rle_decode(input_data, pixel_size)` (lines 26-40): repeatedly read
a tag byte; `code < 0x80` copies `code * pixel_size` literal bytes, otherwise
`code & 0x7f` copies of one `pixel_size`-byte pixel.  The tag byte is always
consumed, so every iteration advances the position by at least one byte;
slices truncate silently at the end of the input, as in Python. -/
def rle_decode (input : List Nat) (ps : Nat) : List Nat :=
  match input with
  | [] => []
  | code :: rest =>
    if code < 0x80 then
      rest.take (code * ps) ++ rle_decode (rest.drop (code * ps)) ps
    else
      (List.replicate (code &&& 0x7f) (rest.take ps)).flatten ++
        rle_decode (rest.drop ps) ps
termination_by input.length
decreasing_by
  all_goals simp [List.length_drop]; omega

/-- Fuel-counted variant of `rle_decode`: one unit of fuel per iteration of
the Python `while i < len(input_data)` loop; `none` means the fuel ran out
before the loop finished. -/
def rle_decode_fuel : Nat → List Nat → Nat → Option (List Nat)
  | _, [], _ => some []
  | 0, _ :: _, _ => none
  | fuel + 1, code :: rest, ps =>
    if code < 0x80 then
      (rle_decode_fuel fuel (rest.drop (code * ps)) ps).map
        (rest.take (code * ps) ++ ·)
    else
      (rle_decode_fuel fuel (rest.drop ps) ps).map
        ((List.replicate (code &&& 0x7f) (rest.take ps)).flatten ++ ·)

/-- Inner loop of `rle_encode` lines 27-30: starting from the run's first
pixel `first`, count how many consecutive `ps`-byte pixels equal `first`.
The guard `i + pixel_size <= len(input_data)` is `ps ≤ rem.length`; the cap
`i - run_start < 127 * pixel_size` is modelled by the fuel argument,
initially 127 (valid for `ps ≥ 1`). -/
def countRun (first : List Nat) (ps : Nat) : Nat → List Nat → Nat
  | 0, _ => 0
  | cap + 1, rem =>
    if ps ≤ rem.length ∧ rem.take ps = first then
      1 + countRun first ps cap (rem.drop ps)
    else 0

/-- Inner loop of `rle_encode` lines 41-44: count how many further pixels the
literal run absorbs past its first pixel.  `rem` is the input suffix starting
`ps` bytes after `literal_start`; the scan stops early when three consecutive
equal pixels lie ahead (the `i + pixel_size * 2 <= len` guarded triple
comparison, whose third slice may be truncated exactly as in Python), and the
cap `i - literal_start < 127 * pixel_size` is the fuel, initially 126. -/
def countLit (ps : Nat) : Nat → List Nat → Nat
  | 0, _ => 0
  | cap + 1, rem =>
    if ps ≤ rem.length then
      if 2 * ps ≤ rem.length ∧ rem.take ps = (rem.drop ps).take ps ∧
          (rem.drop ps).take ps = ((rem.drop ps).drop ps).take ps then
        0
      else 1 + countLit ps cap (rem.drop ps)
    else 0

/-- `Png2Cm.rle_encode(input_data, pixel_size)` (lines 21-50): greedy
single-pass encoder.  Find a run of identical pixels capped at 127; if its
length is at least 2, emit a repeat segment `0x80 | run_length` plus one
pixel, otherwise emit a literal segment whose length (at least 1, at most
127) is determined by `countLit`.  `pixel_size = 0` raises
`ZeroDivisionError` in the source and is mapped to `[]` here; every claim
about the encoder assumes `pixel_size ≥ 1`. -/
def rle_encode (input : List Nat) (ps : Nat) : List Nat :=
  if hps : ps = 0 then []
  else if hi : input = [] then []
  else if hn : 2 ≤ countRun (input.take ps) ps 127 input then
    (0x80 ||| countRun (input.take ps) ps 127 input) :: input.take ps ++
      rle_encode (input.drop (countRun (input.take ps) ps 127 input * ps)) ps
  else
    (1 + countLit ps 126 (input.drop ps)) ::
      input.take ((1 + countLit ps 126 (input.drop ps)) * ps) ++
      rle_encode (input.drop ((1 + countLit ps 126 (input.drop ps)) * ps)) ps
termination_by input.length
decreasing_by
  · have h1 : 1 ≤ countRun (input.take ps) ps 127 input * ps := Nat.le_trans (by omega)
      (Nat.mul_le_mul hn (Nat.one_le_iff_ne_zero.mpr hps))
    have h2 : 0 < input.length := List.length_pos.mpr hi
    simp [List.length_drop]; omega
  · have h1 : 1 ≤ (1 + countLit ps 126 (input.drop ps)) * ps :=
      Nat.le_trans (Nat.one_le_iff_ne_zero.mpr hps) (Nat.le_mul_of_pos_left _ (by omega))
    have h2 : 0 < input.length := List.length_pos.mpr hi
    simp [List.length_drop]; omega

/-! ## CM raster header (`Png2Cm.write_cm_metadata`, `CM2Png.read_cm_metadata`) -/

/-- Little-endian `struct.pack('<I', n)` for `n < 2^32`. -/
def u32le (n : Nat) : List Nat :=
  [n % 256, n / 256 % 256, n / 65536 % 256, n / 16777216 % 256]

/-- Little-endian `struct.pack('<H', n)` for `n < 2^16`. -/
def u16le (n : Nat) : List Nat :=
  [n % 256, n / 256 % 256]

/-- `struct.unpack('<I', bs)[0]`: requires exactly 4 bytes, else `struct.error`. -/
def unpackU32 : List Nat → Option Nat
  | [a, b, c, d] => some (a + 256 * b + 65536 * c + 16777216 * d)
  | _ => none

/-- `struct.unpack('<H', bs)[0]`: requires exactly 2 bytes. -/
def unpackU16 : List Nat → Option Nat
  | [a, b] => some (a + 256 * b)
  | _ => none

/-- `struct.unpack('<B', bs)[0]`: requires exactly 1 byte. -/
def unpackU8 : List Nat → Option Nat
  | [a] => some a
  | _ => none

/-- `struct.unpack('<i', bs)[0]`: 4 bytes read as a signed two's-complement
32-bit integer. -/
def unpackI32 (bs : List Nat) : Option Int :=
  (unpackU32 bs).map fun n =>
    if n < 2147483648 then (n : Int) else (n : Int) - 4294967296

/-- Metadata dictionary passed to `Png2Cm.write_cm_metadata`. -/
structure CmMetadata where
  size : Nat
  width : Nat
  height : Nat
  colors : Nat
  bpp : Nat
  is_compressed : Bool
  data_offset : Nat
  data_length : Nat
  deriving Repr, DecidableEq

/-- Metadata dictionary returned by `CM2Png.read_cm_metadata` (no `size` key). -/
structure CmReadMeta where
  width : Nat
  height : Nat
  colors : Nat
  bpp : Nat
  is_compressed : Bool
  data_offset : Nat
  data_length : Nat
  deriving Repr, DecidableEq

/-- `Png2Cm.write_cm_metadata` (lines 7-19): the 0x20-byte header.  Laid out
byte by byte: `'C','M'` at 0-1, `<I` size at 2-5, `<H` width at 6-7, height
at 8-9, colors at 0x0A-0x0B, bpp at 0x0C, `int(is_compressed)` at 0x0D, the
constant 1 at 0x0E, and `<I` data_offset at 0x10-0x13, data_length at
0x14-0x17; all remaining bytes keep the `bytearray(0x20)` zero fill. -/
def write_cm_metadata (m : CmMetadata) : List Nat :=
  [67, 77] ++ u32le m.size ++ u16le m.width ++ u16le m.height ++
    u16le m.colors ++ [m.bpp, if m.is_compressed then 1 else 0, 1, 0] ++
    u32le m.data_offset ++ u32le m.data_length ++ List.replicate 8 0

/-- `CM2Png.read_cm_metadata` (lines 7-24), reading from the byte buffer `f`
of the opened file whose on-disk size is `fsize` (`os.path.getsize`).
`header = file.read(0x20)` truncates on short files; `header[0x0E]` raises
`IndexError` (= `.exn`) when the header is that short, each `unpack` raises
`struct.error` on a short slice, and the magic/version/size checks return
`None` (= `.invalid`). -/
def read_cm_metadata (f : List Nat) (fsize : Nat) : PyResult CmReadMeta :=
  let header := f.take 32
  if header.take 2 ≠ [67, 77] then .invalid
  else
    match header.get? 14 with
    | none => .exn
    | some v14 =>
      if v14 ≠ 1 then .invalid
      else
        match unpackU32 (readBytes header 2 4) with
        | none => .exn
        | some size =>
          if size ≠ fsize then .invalid
          else
            match unpackU16 (readBytes header 6 2), unpackU16 (readBytes header 8 2),
                unpackU16 (readBytes header 10 2), header.get? 12, header.get? 13,
                unpackU32 (readBytes header 16 4), unpackU32 (readBytes header 20 4) with
            | some w, some h, some c, some bpp, some cf, some doff, some dlen =>
              .ok ⟨w, h, c, bpp, cf ≠ 0, doff, dlen⟩
            | _, _, _, _, _, _, _ => .exn

/-! ## MAI archive (`ARC_MAI_PACK_UNPAK.ArcOpener`) -/

/-- Strip trailing zero bytes: `str.rstrip('\x00')` after an ASCII decode. -/
def rstripZeros (l : List Nat) : List Nat :=
  (l.reverse.dropWhile (· = 0)).reverse

/-- `ArcOpener.read_string(file, offset, length)` (lines 102-105): read up to
`length` bytes, decode as ASCII (raises `UnicodeDecodeError` — `none` — when
any byte is `≥ 0x80`), strip trailing NULs. -/
def read_string (f : List Nat) (off len : Nat) : Option (List Nat) :=
  let bs := readBytes f off len
  if bs.all (· < 128) then some (rstripZeros bs) else none

/-- The file-type tags returned by `detect_file_type` / the `mask.arc`
override in `try_open`.  The constructors stand for the Python strings
`'.cm'`, `'.am'`, `'.bmp'`, `'.msk'`, `'.bin'` and `'MSK/MAI'`. -/
inductive FType where
  | cm
  | am
  | bmp
  | msk
  | bin
  | mskmai
  deriving Repr, DecidableEq

/-- `ArcOpener.detect_file_type(file, offset)` (lines 107-119): read a `<I`
at `offset` (`struct.error` — `none` — if fewer than 4 bytes remain) and
dispatch on its low 16 bits. -/
def detect_file_type (f : List Nat) (offset : Nat) : Option FType :=
  (unpackU32 (readBytes f offset 4)).map fun signature =>
    let st := signature % 65536
    if st = 0x4D43 then .cm
    else if st = 0x4D41 then .am
    else if st = 0x4D42 then .bmp
    else if st = 0x10B4 then .msk
    else .bin

/-- One resolved entry of `try_open`'s `dir` list. -/
structure FileEntry where
  name : List Nat
  offset : Nat
  size : Nat
  ftype : FType
  deriving Repr, DecidableEq

/-- `ArcOpener.check_placement(entry, max_offset)` (lines 121-122). -/
def check_placement (e : FileEntry) (maxOffset : Nat) : Bool :=
  e.offset + e.size ≤ maxOffset

/-- One record of the optional directory table. -/
structure Folder where
  name : List Nat
  index : Int
  deriving Repr, DecidableEq

/-- `os.path.join(current_folder, name)` for POSIX paths restricted to two
components: an absolute second component discards the first; joining with an
empty or `/`-terminated first component adds no separator. -/
def joinPath (a b : List Nat) : List Nat :=
  if b.head? = some 47 then b
  else if a = [] then b
  else if a.getLast? = some 47 then a ++ b
  else a ++ 47 :: b

/-- `try_open` lines 41-47: parse `dir_entries` 8-byte directory records
starting at `dir_offset`; `none` models a raised exception (non-ASCII name
bytes — short `<i` reads are impossible here thanks to the index-size
check, but are mapped to `none` all the same). -/
def parseFolders (f : List Nat) : Nat → Nat → Option (List Folder)
  | _, 0 => some []
  | off, n + 1 =>
    match read_string f off 4, unpackI32 (readBytes f (off + 4) 4) with
    | some name, some idx => (parseFolders f (off + 8) n).map (⟨name, idx⟩ :: ·)
    | _, _ => none

/-- `try_open` lines 56-59: the inner `while i >= next_folder and folder <
len(folders)` cursor advance.  `rest` is the unconsumed suffix of the folder
list; when it empties, `next_folder` no longer changes.  (With `folders =
None` the Python guard is short-circuited before `len(folders)` because
`next_folder` is already `count`, so the `rest = []` case is never reached
with `i ≥ next`.) -/
def advanceCursor (countN : Nat) (i : Int) :
    Int → List Nat → List Folder → Int × List Nat × List Folder
  | next, current, rest =>
    if i ≥ next then
      match rest with
      | [] => (next, current, [])
      | fo :: rest' =>
        advanceCursor countN i
          (match rest' with
           | [] => (countN : Int)
           | g :: _ => g.index)
          fo.name rest'
    else (next, current, rest)

/-- `try_open` lines 55-78: the `for i in range(count)` entry loop.  `n` is
the number of iterations left (`countN - i`), `idx` the running
`index_offset`.  Failed reads raise (`.exn`); an empty trimmed name or a
failed placement check returns `None` (`.invalid`).  The `type` field is
computed — including the possible `struct.error` from `detect_file_type` —
before the placement check, as in the source's dict construction. -/
def entriesLoop (f : List Nat) (isMask : Bool) (countN : Nat) :
    Nat → Nat → Nat → Int → List Nat → List Folder → List FileEntry →
    PyResult (List FileEntry)
  | _, 0, _, _, _, _, acc => .ok acc
  | i, n + 1, idx, next, current, rest, acc =>
    match advanceCursor countN (i : Int) next current rest with
    | (next', current', rest') =>
      match read_string f idx 16 with
      | none => .exn
      | some name =>
        if name = [] then .invalid
        else
          match unpackU32 (readBytes f (idx + 16) 4),
              unpackU32 (readBytes f (idx + 20) 4) with
          | some offset, some size =>
            match if isMask then some FType.mskmai else detect_file_type f offset with
            | none => .exn
            | some ft =>
              let entry : FileEntry := ⟨joinPath current' name, offset, size, ft⟩
              if check_placement entry f.length then
                entriesLoop f isMask countN (i + 1) n (idx + 24) next' current' rest'
                  (acc ++ [entry])
              else .invalid
          | _, _ => .exn

/-- `os.path.basename(file).lower() == "mask.arc"` (line 49): last
`/`-separated component, ASCII-lowercased. -/
def isMaskArc (path : List Char) : Bool :=
  ((path.splitOn '/').getLastD []).map Char.toLower =
    ['m', 'a', 's', 'k', '.', 'a', 'r', 'c']

/-- `ArcOpener.try_open(file)` (lines 23-80) over the file's path and byte
contents (`os.path.getsize(file)` is `f.length`).  Returns the resolved
entry list, `.invalid` for the source's `return None` branches, `.exn` for a
raised exception (short `struct` read or non-ASCII name bytes).  The 4-byte
signature at offset 0 is never examined by the source. -/
def try_open (path : List Char) (f : List Nat) : PyResult (List FileEntry) :=
  match unpackU32 (readBytes f 4 4) with
  | none => .exn
  | some fileSize =>
    if fileSize ≠ f.length then .invalid
    else
      match unpackI32 (readBytes f 8 4) with
      | none => .exn
      | some count =>
        if count ≤ 0 ∨ count > 0xfffff then .invalid
        else
          match unpackU8 (readBytes f 13 1), unpackU16 (readBytes f 14 2) with
          | some dirLevel, some dirEntries =>
            let countN := count.toNat
            if (countN * 0x18 + dirEntries * 8 : Int) > (f.length : Int) - 0x10 then
              .invalid
            else
              match
                if dirEntries ≠ 0 ∧ dirLevel = 2 then
                  (parseFolders f (0x10 + countN * 0x18) dirEntries).map some
                else some none with
              | none => .exn
              | some folders =>
                entriesLoop f (isMaskArc path) countN 0 countN 0x10
                  (match folders with
                   | none => (countN : Int)
                   | some [] => (countN : Int)
                   | some (fo :: _) => fo.index)
                  [] (folders.getD []) []
          | _, _ => .exn

/-! ## Building archives (`ArcOpener.pack_files`) -/

/-- One entry collected by `pack_files`' `os.walk` phase (lines 145-156): the
extension-stripped relative path, already encoded to bytes (`cp932` agrees
byte-for-byte with ASCII on the names the claims quantify over), and the
file's payload bytes.  Directory walking itself is OS glue outside the
modelled core. -/
structure PEntry where
  name : List Nat
  data : List Nat
  deriving Repr, DecidableEq

/-- `entry['name'].ljust(0x10, '\x00')` (line 184): pad with NULs up to 16;
`str.ljust` never truncates, so a longer name is written in full. -/
def ljust16 (name : List Nat) : List Nat :=
  name ++ List.replicate (16 - name.length) 0

/-- One 0x18-byte index record as written by `pack_files` lines 183-186
(name field, `<I` offset, `<I` size). -/
def indexRecord (name : List Nat) (off size : Nat) : List Nat :=
  ljust16 name ++ u32le off ++ u32le size

/-- The index region: records in entry order, offsets assigned sequentially
starting at `off` (lines 164-167). -/
def indexRecs : List PEntry → Nat → List Nat
  | [], _ => []
  | e :: es, off => indexRecord e.name off e.data.length ++ indexRecs es (off + e.data.length)

/-- Total payload size of the collected entries. -/
def sumSizes (es : List PEntry) : Nat :=
  (es.map (·.data.length)).sum

/-- Concatenated payload region (lines 189-190). -/
def payload (es : List PEntry) : List Nat :=
  (es.map (·.data)).flatten

/-- `ArcOpener.pack_files` (lines 140-190) on the collected entry list: the
16-byte header (`<I` signature `0x0a49414d`, `<I` total size, `<I` entry
count, the literal bytes `b'\x00\x01\x00\x00'`), the index region starting
at 0x10, then the payload region. -/
def pack_files (es : List PEntry) : List Nat :=
  u32le 0x0a49414d ++ u32le (0x10 + es.length * 0x18 + sumSizes es) ++
    u32le es.length ++ [0, 1, 0, 0] ++
    indexRecs es (0x10 + es.length * 0x18) ++ payload es

/-! ## Concrete test archives -/

/-- A 156-byte archive with `dirLevel = 2`, directory table
`[{name:"AA", start:0}, {name:"BB", start:3}]` and 5 flat entries
`E0`..`E4`, every entry pointing at the 4-byte payload `CM\x00\x00`
at offset 152. -/
def dirArchive : List Nat :=
  [77, 65, 73, 10] ++ u32le 156 ++ u32le 5 ++ [0, 2, 2, 0] ++
    (List.range 5).flatMap (fun k => indexRecord [69, 48 + k] 152 4) ++
    ([65, 65, 0, 0] ++ u32le 0 ++ [66, 66, 0, 0] ++ u32le 3) ++
    [67, 77, 0, 0]

/-- A 44-byte flat archive with a single entry `A` whose 4-byte payload
`CM\x00\x00` carries the `.cm` signature. -/
def flatArchive : List Nat :=
  [77, 65, 73, 10] ++ u32le 44 ++ u32le 1 ++ [0, 1, 0, 0] ++
    indexRecord [65] 40 4 ++ [67, 77, 0, 0]

/-- A 40-byte flat archive with a single zero-sized entry whose offset is the
end of the file: the placement check passes but `detect_file_type` has no
bytes to read. -/
def emptyTailArchive : List Nat :=
  [77, 65, 73, 10] ++ u32le 40 ++ u32le 1 ++ [0, 1, 0, 0] ++
    indexRecord [65] 40 0

/-- A 45-byte flat archive whose single entry has `offset = 41`, `size = 8`:
`offset + size = 49 > 45`, so the entry is out of bounds, while its first
four bytes are still readable. -/
def oobArchive : List Nat :=
  [77, 65, 73, 10] ++ u32le 45 ++ u32le 1 ++ [0, 1, 0, 0] ++
    indexRecord [65] 41 8 ++ [67, 77, 0, 0, 0]

/-- A 44-byte flat archive whose single entry has `offset = 44` (the end of
the file) and `size = 1`: the placement check fails, but `detect_file_type`
is evaluated first and raises `struct.error` on the empty read. -/
def oobCrashArchive : List Nat :=
  [77, 65, 73, 10] ++ u32le 44 ++ u32le 1 ++ [0, 1, 0, 0] ++
    indexRecord [65] 44 1 ++ [67, 77, 0, 0]

/-! ## Specification predicates -/

/-- Well-formedness of an RLE byte stream, segment by segment: a repeat
segment carries a count between 2 and 127 and exactly one pixel, a literal
segment a count between 1 and 127 and exactly that many pixels. -/
inductive SegsOk (ps : Nat) : List Nat → Prop
  | nil : SegsOk ps []
  | rep (n : Nat) (pix rest : List Nat) (h2 : 2 ≤ n) (h127 : n ≤ 127)
      (hpix : pix.length = ps) (hrest : SegsOk ps rest) :
      SegsOk ps ((128 ||| n) :: (pix ++ rest))
  | lit (n : Nat) (bs rest : List Nat) (h1 : 1 ≤ n) (h127 : n ≤ 127)
      (hbs : bs.length = n * ps) (hrest : SegsOk ps rest) :
      SegsOk ps (n :: (bs ++ rest))

/-- The payload region of an archive is laid out correctly from `off` on:
each entry's bytes sit at its assigned offset, are at least 4 bytes long (so
`detect_file_type` can read a signature), lie inside the file, and both the
offset and size fit in a `u32`. -/
def GoodAt (f : List Nat) : Nat → List PEntry → Prop
  | _, [] => True
  | off, e :: es => off < 4294967296 ∧ e.data.length < 4294967296 ∧
      4 ≤ e.data.length ∧ off + e.data.length ≤ f.length ∧
      readBytes f off e.data.length = e.data ∧ GoodAt f (off + e.data.length) es

end MaiTools

open MaiTools

set_option maxRecDepth 10000

/-! ## RunLengthCodec lemmas -/

theorem rle_decode_nil (ps : Nat) : rle_decode [] ps = [] := by
  simp [rle_decode]

theorem rle_decode_cons (code : Nat) (rest : List Nat) (ps : Nat) :
    rle_decode (code :: rest) ps =
      if code < 128 then
        rest.take (code * ps) ++ rle_decode (rest.drop (code * ps)) ps
      else
        (List.replicate (code &&& 127) (rest.take ps)).flatten ++
          rle_decode (rest.drop ps) ps := by
  rw [rle_decode]

theorem tag_or (n : Nat) (h : n < 128) : 128 ||| n = 128 + n := by
  revert n h; decide

theorem tag_and (n : Nat) (h : n < 128) : (128 + n) &&& 127 = n := by
  revert n h; decide

theorem rle_decode_fuel_eq (ps : Nat) :
    ∀ fuel input, input.length ≤ fuel →
      rle_decode_fuel fuel input ps = some (rle_decode input ps) := by
  intro fuel
  induction fuel with
  | zero =>
    intro input h
    match input with
    | [] => simp [rle_decode_fuel, rle_decode_nil]
  | succ fuel ih =>
    intro input h
    match input with
    | [] => simp [rle_decode_fuel, rle_decode_nil]
    | code :: rest =>
      rw [rle_decode_cons, rle_decode_fuel]
      by_cases hc : code < 128
      · rw [if_pos hc, if_pos hc, ih _ (by simp at h ⊢; omega)]
        rfl
      · rw [if_neg hc, if_neg hc, ih _ (by simp at h ⊢; omega)]
        rfl

theorem countRun_le_cap (first : List Nat) (ps : Nat) :
    ∀ cap rem, countRun first ps cap rem ≤ cap := by
  intro cap
  induction cap with
  | zero => intro rem; simp [countRun]
  | succ cap ih =>
    intro rem
    rw [countRun]
    split
    · have := ih (rem.drop ps); omega
    · omega

theorem mul_countRun_le (first : List Nat) (ps : Nat) :
    ∀ cap rem, ps * countRun first ps cap rem ≤ rem.length := by
  intro cap
  induction cap with
  | zero => intro rem; simp [countRun]
  | succ cap ih =>
    intro rem
    rw [countRun]
    split
    · rename_i h
      have := ih (rem.drop ps)
      simp [List.length_drop] at this
      have hle := h.1
      rw [Nat.mul_add]
      omega
    · simp

theorem take_countRun (first : List Nat) (ps : Nat) :
    ∀ cap rem, rem.take (countRun first ps cap rem * ps) =
      (List.replicate (countRun first ps cap rem) first).flatten := by
  intro cap
  induction cap with
  | zero => intro rem; simp [countRun]
  | succ cap ih =>
    intro rem
    rw [countRun]
    split
    · rename_i h
      rw [Nat.add_mul, one_mul, List.take_add, ih (rem.drop ps)]
      rw [List.replicate_add, List.replicate_one, List.flatten_append]
      simp [h.2]
    · simp

theorem countLit_le_cap (ps : Nat) :
    ∀ cap rem, countLit ps cap rem ≤ cap := by
  intro cap
  induction cap with
  | zero => intro rem; simp [countLit]
  | succ cap ih =>
    intro rem
    rw [countLit]
    split
    · split
      · omega
      · have := ih (rem.drop ps); omega
    · omega

theorem mul_countLit_le (ps : Nat) :
    ∀ cap rem, ps * countLit ps cap rem ≤ rem.length := by
  intro cap
  induction cap with
  | zero => intro rem; simp [countLit]
  | succ cap ih =>
    intro rem
    rw [countLit]
    split
    · split
      · simp
      · rename_i h _
        have := ih (rem.drop ps)
        simp [List.length_drop] at this
        rw [Nat.mul_add]
        omega
    · simp

theorem rle_decode_repeat (n ps : Nat) (pix rest : List Nat)
    (hn : n ≤ 127) (hpix : pix.length = ps) :
    rle_decode ((128 ||| n) :: (pix ++ rest)) ps =
      (List.replicate n pix).flatten ++ rle_decode rest ps := by
  rw [rle_decode_cons, tag_or n (by omega)]
  rw [if_neg (by omega), tag_and n (by omega)]
  rw [List.take_left' hpix, List.drop_left' hpix]

theorem rle_decode_literal (m ps : Nat) (bs rest : List Nat)
    (hm : m < 128) (hbs : bs.length = m * ps) :
    rle_decode (m :: (bs ++ rest)) ps = bs ++ rle_decode rest ps := by
  rw [rle_decode_cons, if_pos hm, List.take_left' hbs, List.drop_left' hbs]

theorem rle_encode_nil (ps : Nat) : rle_encode [] ps = [] := by
  rw [rle_encode]
  split
  · rfl
  · rw [dif_pos rfl]

/-! ## RunLengthCodec main theorems (helpers) -/

theorem roundtrip_aux (ps : Nat) (hps : 0 < ps) :
    ∀ N input, input.length ≤ N → ps ∣ input.length →
      rle_decode (rle_encode input ps) ps = input := by
  intro N
  induction N with
  | zero =>
    intro input hlen _
    have h0 : input = [] := List.eq_nil_of_length_eq_zero (by omega)
    subst h0
    simp [rle_encode, rle_decode_nil]
  | succ N ih =>
    intro input hlen hdvd
    by_cases hi : input = []
    · subst hi; simp [rle_encode, rle_decode_nil]
    · have hlenpos : 0 < input.length := List.length_pos.mpr hi
      have hps_le : ps ≤ input.length := Nat.le_of_dvd hlenpos hdvd
      rw [rle_encode, dif_neg (by omega), dif_neg hi]
      by_cases hn : 2 ≤ countRun (input.take ps) ps 127 input
      · rw [dif_pos hn, List.cons_append]
        have hn127 : countRun (input.take ps) ps 127 input ≤ 127 :=
          countRun_le_cap _ _ _ _
        have hmul : ps * countRun (input.take ps) ps 127 input ≤ input.length :=
          mul_countRun_le _ _ _ _
        have hfirst : (input.take ps).length = ps := by
          simp [List.length_take]; omega
        have hmul' : countRun (input.take ps) ps 127 input * ps ≤ input.length := by
          rw [Nat.mul_comm]; exact hmul
        have hpos : 0 < countRun (input.take ps) ps 127 input * ps :=
          Nat.mul_pos (by omega) hps
        rw [rle_decode_repeat _ _ _ _ hn127 hfirst]
        rw [ih (input.drop (countRun (input.take ps) ps 127 input * ps))
          (by simp [List.length_drop]; omega)
          (by simp [List.length_drop]
              exact Nat.dvd_sub' hdvd (Dvd.dvd.mul_left dvd_rfl _))]
        rw [← take_countRun (input.take ps) ps 127 input]
        exact List.take_append_drop _ _
      · rw [dif_neg hn, List.cons_append]
        have hcap : countLit ps 126 (input.drop ps) ≤ 126 := countLit_le_cap _ _ _
        have hmul : countLit ps 126 (input.drop ps) * ps ≤ input.length - ps := by
          rw [Nat.mul_comm]
          have := mul_countLit_le ps 126 (input.drop ps)
          simpa [List.length_drop] using this
        have hm_le : (1 + countLit ps 126 (input.drop ps)) * ps ≤ input.length := by
          have h1 : (1 + countLit ps 126 (input.drop ps)) * ps =
              ps + countLit ps 126 (input.drop ps) * ps := by ring
          omega
        have hpos : 0 < (1 + countLit ps 126 (input.drop ps)) * ps :=
          Nat.mul_pos (by omega) hps
        have hbs : (input.take ((1 + countLit ps 126 (input.drop ps)) * ps)).length =
            (1 + countLit ps 126 (input.drop ps)) * ps := by
          simp [List.length_take]; omega
        rw [rle_decode_literal _ _ _ _ (by omega) hbs]
        rw [ih (input.drop ((1 + countLit ps 126 (input.drop ps)) * ps))
          (by simp [List.length_drop]; omega)
          (by simp [List.length_drop]
              exact Nat.dvd_sub' hdvd (Dvd.dvd.mul_left dvd_rfl _))]
        exact List.take_append_drop _ _

theorem segsOk_aux (ps : Nat) (hps : 0 < ps) :
    ∀ N input, input.length ≤ N → ps ∣ input.length →
      SegsOk ps (rle_encode input ps) := by
  intro N
  induction N with
  | zero =>
    intro input hlen _
    have h0 : input = [] := List.eq_nil_of_length_eq_zero (by omega)
    subst h0
    rw [rle_encode_nil]
    exact SegsOk.nil
  | succ N ih =>
    intro input hlen hdvd
    by_cases hi : input = []
    · subst hi
      rw [rle_encode_nil]
      exact SegsOk.nil
    · have hlenpos : 0 < input.length := List.length_pos.mpr hi
      have hps_le : ps ≤ input.length := Nat.le_of_dvd hlenpos hdvd
      rw [rle_encode, dif_neg (by omega), dif_neg hi]
      by_cases hn : 2 ≤ countRun (input.take ps) ps 127 input
      · rw [dif_pos hn, List.cons_append]
        have hn127 : countRun (input.take ps) ps 127 input ≤ 127 :=
          countRun_le_cap _ _ _ _
        have hmul : ps * countRun (input.take ps) ps 127 input ≤ input.length :=
          mul_countRun_le _ _ _ _
        have hmul' : countRun (input.take ps) ps 127 input * ps ≤ input.length := by
          rw [Nat.mul_comm]; exact hmul
        have hpos : 0 < countRun (input.take ps) ps 127 input * ps :=
          Nat.mul_pos (by omega) hps
        have hfirst : (input.take ps).length = ps := by
          simp [List.length_take]; omega
        exact SegsOk.rep _ _ _ hn hn127 hfirst
          (ih _ (by simp [List.length_drop]; omega)
            (by simp [List.length_drop]
                exact Nat.dvd_sub' hdvd (Dvd.dvd.mul_left dvd_rfl _)))
      · rw [dif_neg hn, List.cons_append]
        have hcap : countLit ps 126 (input.drop ps) ≤ 126 := countLit_le_cap _ _ _
        have hmul : countLit ps 126 (input.drop ps) * ps ≤ input.length - ps := by
          rw [Nat.mul_comm]
          have := mul_countLit_le ps 126 (input.drop ps)
          simpa [List.length_drop] using this
        have hm_le : (1 + countLit ps 126 (input.drop ps)) * ps ≤ input.length := by
          have h1 : (1 + countLit ps 126 (input.drop ps)) * ps =
              ps + countLit ps 126 (input.drop ps) * ps := by ring
          omega
        have hpos : 0 < (1 + countLit ps 126 (input.drop ps)) * ps :=
          Nat.mul_pos (by omega) hps
        have hbs : (input.take ((1 + countLit ps 126 (input.drop ps)) * ps)).length =
            (1 + countLit ps 126 (input.drop ps)) * ps := by
          simp [List.length_take]; omega
        exact SegsOk.lit _ _ _ (by omega) (by omega) hbs
          (ih _ (by simp [List.length_drop]; omega)
            (by simp [List.length_drop]
                exact Nat.dvd_sub' hdvd (Dvd.dvd.mul_left dvd_rfl _)))

/-! ## Archive resolution lemmas -/

theorem entriesLoop_ok_forall (f : List Nat) (isMask : Bool) (countN : Nat) :
    ∀ n i idx next current rest acc r,
      entriesLoop f isMask countN i n idx next current rest acc = .ok r →
      ∀ e ∈ r, e ∈ acc ∨
        (check_placement e f.length = true ∧ (isMask = true → e.ftype = .mskmai)) := by
  intro n
  induction n with
  | zero =>
    intro i idx next current rest acc r h e he
    rw [entriesLoop] at h
    cases h
    exact Or.inl he
  | succ n ih =>
    intro i idx next current rest acc r h e he
    rw [entriesLoop] at h
    rcases hA : advanceCursor countN (i : Int) next current rest with ⟨next', current', rest'⟩
    rw [hA] at h
    cases hrs : read_string f idx 16 with
    | none => rw [hrs] at h; cases h
    | some name =>
      rw [hrs] at h
      dsimp only at h
      by_cases hname : name = []
      · rw [if_pos hname] at h; cases h
      · rw [if_neg hname] at h
        cases ho : unpackU32 (readBytes f (idx + 16) 4) with
        | none =>
          rw [ho] at h
          cases hs : unpackU32 (readBytes f (idx + 20) 4) <;> rw [hs] at h <;> cases h
        | some offset =>
          rw [ho] at h
          cases hs : unpackU32 (readBytes f (idx + 20) 4) with
          | none => rw [hs] at h; cases h
          | some size =>
            rw [hs] at h
            dsimp only at h
            cases hft : (if isMask = true then some FType.mskmai
                else detect_file_type f offset) with
            | none => rw [hft] at h; cases h
            | some ft =>
              rw [hft] at h
              dsimp only at h
              by_cases hp : check_placement ⟨joinPath current' name, offset, size, ft⟩ f.length
              · rw [if_pos hp] at h
                rcases ih _ _ _ _ _ _ _ h e he with hacc | hgood
                · rcases List.mem_append.mp hacc with h1 | h1
                  · exact Or.inl h1
                  · right
                    have he' : e = ⟨joinPath current' name, offset, size, ft⟩ := by
                      simpa using h1
                    subst he'
                    refine ⟨hp, fun hM => ?_⟩
                    rw [hM] at hft
                    simpa using hft.symm
                · exact Or.inr hgood
              · rw [if_neg hp] at h; cases h

theorem try_open_ok_inv (path : List Char) (f : List Nat) (r : List FileEntry)
    (h : try_open path f = .ok r) :
    ∃ countN next0 rest0,
      entriesLoop f (isMaskArc path) countN 0 countN 0x10 next0 [] rest0 [] = .ok r := by
  unfold try_open at h
  cases h1 : unpackU32 (readBytes f 4 4) with
  | none => rw [h1] at h; cases h
  | some fileSize =>
    rw [h1] at h
    dsimp only at h
    by_cases h2 : fileSize ≠ f.length
    · rw [if_pos h2] at h; cases h
    · rw [if_neg h2] at h
      cases h3 : unpackI32 (readBytes f 8 4) with
      | none => rw [h3] at h; cases h
      | some count =>
        rw [h3] at h
        dsimp only at h
        by_cases h4 : count ≤ 0 ∨ count > 0xfffff
        · rw [if_pos h4] at h; cases h
        · rw [if_neg h4] at h
          cases h5 : unpackU8 (readBytes f 13 1) with
          | none =>
            rw [h5] at h
            cases h6 : unpackU16 (readBytes f 14 2) <;> rw [h6] at h <;> cases h
          | some dirLevel =>
            rw [h5] at h
            cases h6 : unpackU16 (readBytes f 14 2) with
            | none => rw [h6] at h; cases h
            | some dirEntries =>
              rw [h6] at h
              dsimp only at h
              by_cases h7 : (count.toNat : Int) * 24 + (dirEntries : Int) * 8 >
                  (f.length : Int) - 16
              · rw [if_pos h7] at h; cases h
              · rw [if_neg h7] at h
                cases h8 : (if dirEntries ≠ 0 ∧ dirLevel = 2 then
                    (parseFolders f (0x10 + count.toNat * 0x18) dirEntries).map some
                  else some none) with
                | none => rw [h8] at h; cases h
                | some folders =>
                  rw [h8] at h
                  dsimp only at h
                  exact ⟨_, _, _, h⟩

/-! ## Packing lemmas -/

theorem unpackU32_u32le (n : Nat) (h : n < 4294967296) : unpackU32 (u32le n) = some n := by
  simp only [u32le, unpackU32]
  congr 1
  omega

theorem unpackI32_u32le (n : Nat) (h : n < 2147483648) :
    unpackI32 (u32le n) = some (n : Int) := by
  rw [unpackI32, unpackU32_u32le n (by omega)]
  simp [Option.map]
  omega

theorem u32le_length (n : Nat) : (u32le n).length = 4 := rfl

theorem ljust16_length (name : List Nat) (h : name.length ≤ 16) :
    (ljust16 name).length = 16 := by
  simp [ljust16]
  omega

theorem dropWhile_zeros (k : Nat) (l : List Nat) :
    (List.replicate k 0 ++ l).dropWhile (· = 0) = l.dropWhile (· = 0) := by
  induction k with
  | zero => simp
  | succ k ih => simp [List.replicate_succ, List.dropWhile, ih]

theorem rstripZeros_pad (name : List Nat) (k : Nat) (h : ∀ b ∈ name, 0 < b) :
    rstripZeros (name ++ List.replicate k 0) = name := by
  rw [rstripZeros, List.reverse_append, List.reverse_replicate, dropWhile_zeros]
  cases hrev : name.reverse with
  | nil =>
    have : name = [] := by simpa using congrArg List.reverse hrev
    simp [this]
  | cons x xs =>
    have hx : x ∈ name := by
      have : x ∈ name.reverse := by rw [hrev]; exact List.mem_cons_self x xs
      simpa using this
    have hx0 : ¬(x = 0) := by have := h x hx; omega
    rw [List.dropWhile_cons_of_neg (by simpa using hx0), ← hrev, List.reverse_reverse]

theorem rstripZeros_ljust16 (name : List Nat) (h : ∀ b ∈ name, 0 < b) :
    rstripZeros (ljust16 name) = name :=
  rstripZeros_pad name _ h

theorem payload_length (es : List PEntry) : (payload es).length = sumSizes es := by
  simp only [payload, sumSizes, List.length_flatten, List.map_map]
  congr 1

theorem goodAt_of_drop (f : List Nat) (hlen : f.length < 4294967296) :
    ∀ (suf : List PEntry) (off : Nat),
      f.drop off = payload suf → (∀ e ∈ suf, 4 ≤ e.data.length) →
      GoodAt f off suf := by
  intro suf
  induction suf with
  | nil => intro off _ _; trivial
  | cons e suf ih =>
    intro off hdrop hdata
    have hd4 : 4 ≤ e.data.length := hdata e (List.mem_cons_self e suf)
    have hpl : payload (e :: suf) = e.data ++ payload suf := by
      simp [payload]
    have hlen_drop : (f.drop off).length = f.length - off := List.length_drop _ _
    have hlen_eq : f.length - off = e.data.length + sumSizes suf := by
      rw [← hlen_drop, hdrop, hpl]
      simp [payload_length]
    have hoff_lt : off < f.length := by omega
    have hsum : off + e.data.length ≤ f.length := by omega
    refine ⟨by omega, by omega, hd4, hsum, ?_, ?_⟩
    · rw [readBytes, hdrop, hpl, List.take_left' rfl]
    · refine ih (off + e.data.length) ?_ (fun x hx => hdata x (List.mem_cons_of_mem _ hx))
      rw [← List.drop_drop, hdrop, hpl, List.drop_left' rfl]

theorem advanceCursor_nil (countN : Nat) (i next : Int) (current : List Nat) :
    advanceCursor countN i next current [] = (next, current, []) := by
  rw [advanceCursor]
  split <;> rfl

theorem unpackU32_exists (bs : List Nat) (h : bs.length = 4) :
    ∃ v, unpackU32 bs = some v := by
  match bs, h with
  | [a, b, c, d], _ => exact ⟨_, rfl⟩

theorem entriesLoop_pack_spec (f : List Nat) (isMask : Bool) (countN : Nat) :
    ∀ (suf : List PEntry) (i idx off : Nat) (next : Int) (acc : List FileEntry)
      (T : List Nat),
      f.drop idx = indexRecs suf off ++ T →
      (∀ e ∈ suf, e.name ≠ [] ∧ e.name.length ≤ 16 ∧ ∀ b ∈ e.name, 0 < b ∧ b < 128) →
      GoodAt f off suf →
      ∃ r', entriesLoop f isMask countN i suf.length idx next [] [] acc =
          .ok (acc ++ r') ∧
        List.Forall₂ (fun fe pe => fe.name = pe.name ∧ fe.size = pe.data.length ∧
          readBytes f fe.offset fe.size = pe.data) r' suf := by
  intro suf
  induction suf with
  | nil =>
    intro i idx off next acc T _ _ _
    exact ⟨[], by simp [entriesLoop], List.Forall₂.nil⟩
  | cons e suf ih =>
    intro i idx off next acc T hdrop hnames hgood
    obtain ⟨hoff32, hsz32, hd4, hplace, hread, hgood'⟩ := hgood
    obtain ⟨hne, hlen16, hbytes⟩ := hnames e (List.mem_cons_self e suf)
    have hlj : (ljust16 e.name).length = 16 := ljust16_length e.name hlen16
    have hdrop1 : f.drop idx =
        ljust16 e.name ++ (u32le off ++ (u32le e.data.length ++
          (indexRecs suf (off + e.data.length) ++ T))) := by
      rw [hdrop]
      simp [indexRecs, indexRecord, List.append_assoc]
    have hrs : read_string f idx 16 = some e.name := by
      rw [read_string, readBytes, hdrop1, List.take_left' hlj]
      rw [if_pos ?_, rstripZeros_ljust16 e.name (fun b hb => (hbytes b hb).1)]
      simp only [ljust16, List.all_append, Bool.and_eq_true, List.all_eq_true]
      constructor
      · intro b hb
        have := (hbytes b hb).2
        simpa using this
      · intro b hb
        have : b = 0 := List.eq_of_mem_replicate hb
        simp [this]
    have hro : unpackU32 (readBytes f (idx + 16) 4) = some off := by
      rw [readBytes, ← List.drop_drop, hdrop1, List.drop_left' hlj,
        List.take_left' (u32le_length off)]
      exact unpackU32_u32le off hoff32
    have hrsz : unpackU32 (readBytes f (idx + 20) 4) = some e.data.length := by
      have h20 : idx + 20 = (idx + 16) + 4 := by omega
      rw [readBytes, h20, ← List.drop_drop, ← List.drop_drop, hdrop1,
        List.drop_left' hlj, List.drop_left' (u32le_length off),
        List.take_left' (u32le_length e.data.length)]
      exact unpackU32_u32le e.data.length hsz32
    have hdet : ∃ ft, (if isMask = true then some FType.mskmai
        else detect_file_type f off) = some ft := by
      cases isMask with
      | true => exact ⟨FType.mskmai, rfl⟩
      | false =>
        have hlen4 : (readBytes f off 4).length = 4 := by
          have : readBytes f off 4 = e.data.take 4 := by
            rw [readBytes] at hread ⊢
            rw [← hread, List.take_take]
            congr 1
            omega
          rw [this, List.length_take]
          omega
        obtain ⟨v, hv⟩ := unpackU32_exists _ hlen4
        refine ⟨if v % 65536 = 0x4D43 then FType.cm
          else if v % 65536 = 0x4D41 then FType.am
          else if v % 65536 = 0x4D42 then FType.bmp
          else if v % 65536 = 0x10B4 then FType.msk
          else FType.bin, ?_⟩
        rw [detect_file_type, hv]
        rfl
    obtain ⟨ft, hft⟩ := hdet
    have hdrop' : f.drop (idx + 24) = indexRecs suf (off + e.data.length) ++ T := by
      have h24 : idx + 24 = ((idx + 16) + 4) + 4 := by omega
      rw [h24, ← List.drop_drop, ← List.drop_drop, ← List.drop_drop, hdrop1,
        List.drop_left' hlj, List.drop_left' (u32le_length off),
        List.drop_left' (u32le_length e.data.length)]
    obtain ⟨r', hloop, hfa⟩ := ih (i + 1) (idx + 24) (off + e.data.length) next
      (acc ++ [⟨e.name, off, e.data.length, ft⟩]) T hdrop'
      (fun x hx => hnames x (List.mem_cons_of_mem _ hx)) hgood'
    refine ⟨⟨e.name, off, e.data.length, ft⟩ :: r', ?_, ?_⟩
    · rw [List.length_cons, entriesLoop, advanceCursor_nil, hrs]
      dsimp only
      rw [if_neg hne, hro, hrsz]
      dsimp only
      rw [hft]
      dsimp only
      have hjoin : joinPath [] e.name = e.name := by
        rw [joinPath]
        split
        · rfl
        · rw [if_pos rfl]
      rw [hjoin]
      rw [if_pos (by simpa [check_placement, decide_eq_true_eq] using hplace)]
      rw [hloop]
      simp
    · exact List.Forall₂.cons ⟨rfl, rfl, hread⟩ hfa

theorem indexRecs_length (es : List PEntry) (h : ∀ e ∈ es, e.name.length ≤ 16) :
    ∀ off, (indexRecs es off).length = 24 * es.length := by
  induction es with
  | nil => intro off; simp [indexRecs]
  | cons e es ih =>
    intro off
    have h16 : (ljust16 e.name).length = 16 :=
      ljust16_length e.name (h e (List.mem_cons_self e es))
    have ih' := ih (fun x hx => h x (List.mem_cons_of_mem _ hx)) (off + e.data.length)
    simp [indexRecs, indexRecord, h16, ih', u32le]
    ring

theorem pack_files_length (es : List PEntry) (h : ∀ e ∈ es, e.name.length ≤ 16) :
    (pack_files es).length = 16 + 24 * es.length + sumSizes es := by
  simp [pack_files, indexRecs_length es h, payload_length, u32le]
  ring

theorem pack_files_split (es : List PEntry) :
    pack_files es = [77, 65, 73, 10] ++
      (u32le (16 + 24 * es.length + sumSizes es) ++ (u32le es.length ++
        ([0, 1, 0, 0] ++ (indexRecs es (16 + 24 * es.length) ++ payload es)))) := by
  norm_num [pack_files, List.append_assoc, u32le]
  refine ⟨?_, ?_, ?_, ?_, ?_⟩ <;> ring_nf

theorem pack_read4 (es : List PEntry) :
    readBytes (pack_files es) 4 4 = u32le (16 + 24 * es.length + sumSizes es) := by
  rw [readBytes, pack_files_split]
  simp [u32le]

theorem pack_read8 (es : List PEntry) :
    readBytes (pack_files es) 8 4 = u32le es.length := by
  rw [readBytes, pack_files_split]
  simp [u32le]

theorem pack_read13 (es : List PEntry) :
    readBytes (pack_files es) 13 1 = [1] := by
  rw [readBytes, pack_files_split]
  simp [u32le]

theorem pack_read14 (es : List PEntry) :
    readBytes (pack_files es) 14 2 = [0, 0] := by
  rw [readBytes, pack_files_split]
  simp [u32le]

theorem pack_drop16 (es : List PEntry) :
    (pack_files es).drop 16 =
      indexRecs es (16 + 24 * es.length) ++ payload es := by
  rw [pack_files_split]
  simp [u32le]

/-! ## Claim theorems -/

/-- C1: for every byte buffer `input` and every pixel size `ps ≥ 1` such that
`input.length` is a multiple of `ps`, decoding the run-length encoder's
output reproduces the buffer exactly:
`rle_decode (rle_encode input ps) ps = input`. -/
theorem rle_roundtrip (input : List Nat) (ps : Nat) (hps : 1 ≤ ps)
    (hdvd : ps ∣ input.length) (hbytes : ∀ b ∈ input, b < 256) :
    rle_decode (rle_encode input ps) ps = input :=
  roundtrip_aux ps hps input.length input le_rfl hdvd

/-- C1 witness: the round trip at the concrete 12-byte buffer
`[5,6,7,5,6,7,5,6,7,9,9,9]` with `pixel_size = 3`. -/
theorem rle_roundtrip_witness :
    1 ≤ 3 ∧ 3 ∣ ([5, 6, 7, 5, 6, 7, 5, 6, 7, 9, 9, 9] : List Nat).length ∧
      (∀ b ∈ ([5, 6, 7, 5, 6, 7, 5, 6, 7, 9, 9, 9] : List Nat), b < 256) ∧
      rle_decode (rle_encode [5, 6, 7, 5, 6, 7, 5, 6, 7, 9, 9, 9] 3) 3 =
        [5, 6, 7, 5, 6, 7, 5, 6, 7, 9, 9, 9] :=
  ⟨by omega, by decide, by decide,
    rle_roundtrip [5, 6, 7, 5, 6, 7, 5, 6, 7, 9, 9, 9] 3 (by omega) (by decide) (by decide)⟩

/-- C2: `rle_decode` does NOT surface a codec error on a truncated run; it
silently clamps the run to the bytes that remain.  The literal tag `2` in
`[2, 171]` declares two payload bytes while only one remains, yet decoding
returns `[171]` with no failure; the repeat tag `0x82` in `[130]` declares a
pixel read past the end, yet decoding returns `[]`.  This contradicts the
specified behaviour, which requires a codec error. -/
theorem rle_decode_silently_truncates :
    rle_decode [2, 171] 1 = [171] ∧ rle_decode [130] 1 = [] := by
  constructor <;> simp [rle_decode]

/-- C4: `pack_files` does NOT truncate long names to 16 bytes.  The name
field is `name.ljust(0x10, '\x00')`, and `str.ljust` only pads: for the
17-byte name `abcdefghijklmnopq` the written name field is 17 bytes and the
whole index record `0x19` bytes instead of `0x18`. -/
theorem pack_long_name_record_overflows :
    (ljust16 [97, 98, 99, 100, 101, 102, 103, 104, 105, 106,
      107, 108, 109, 110, 111, 112, 113]).length = 17 ∧
    (indexRecord [97, 98, 99, 100, 101, 102, 103, 104, 105, 106,
      107, 108, 109, 110, 111, 112, 113] 64 4).length = 25 := by
  decide

/-- C6: for the archive whose directory table is
`[{name:"AA", start:0}, {name:"BB", start:3}]` with `dirLevel = 2` and five
flat entries `E0`..`E4`, resolution prefixes entries 0-2 with `AA` and
entries 3-4 with `BB` (`65,65` is `AA`, `66,66` is `BB`, `47` is `/`). -/
theorem dir_table_resolution :
    try_open ['g', 'a', 'm', 'e', '.', 'a', 'r', 'c'] dirArchive = .ok
      [⟨[65, 65, 47, 69, 48], 152, 4, .cm⟩,
       ⟨[65, 65, 47, 69, 49], 152, 4, .cm⟩,
       ⟨[65, 65, 47, 69, 50], 152, 4, .cm⟩,
       ⟨[66, 66, 47, 69, 51], 152, 4, .cm⟩,
       ⟨[66, 66, 47, 69, 52], 152, 4, .cm⟩] := by
  decide

/-- C7: whenever the archive's basename is `mask.arc` up to ASCII case,
every entry of a successful resolution carries the fixed override tag
`MSK/MAI`; per-entry signature detection is bypassed. -/
theorem mask_arc_override (path : List Char) (f : List Nat) (r : List FileEntry)
    (hm : isMaskArc path = true) (h : try_open path f = .ok r) :
    ∀ e ∈ r, e.ftype = .mskmai := by
  obtain ⟨countN, next0, rest0, hL⟩ := try_open_ok_inv path f r h
  intro e he
  rcases entriesLoop_ok_forall f (isMaskArc path) countN countN 0 16 next0 [] rest0 [] r
      hL e he with hacc | hgood
  · simp at hacc
  · exact hgood.2 hm

/-- C7 witness: `MASK.Arc` matches case-insensitively; its single entry has
`offset` at the end of the file, so signature detection would raise, yet the
archive resolves and the entry's type is the override tag. -/
theorem mask_arc_override_witness :
    isMaskArc ['M', 'A', 'S', 'K', '.', 'A', 'r', 'c'] = true ∧
    try_open ['M', 'A', 'S', 'K', '.', 'A', 'r', 'c'] emptyTailArchive =
      .ok [⟨[65], 40, 0, .mskmai⟩] ∧
    ∀ e ∈ [(⟨[65], 40, 0, .mskmai⟩ : FileEntry)], e.ftype = .mskmai :=
  ⟨by decide, by decide,
    mask_arc_override ['M', 'A', 'S', 'K', '.', 'A', 'r', 'c'] emptyTailArchive
      [⟨[65], 40, 0, .mskmai⟩] (by decide) (by decide)⟩

/-- C8: on a pixel-aligned buffer the encoder only emits well-formed
segments: every repeat segment has a count between 2 and 127 and every
literal segment a count between 1 and 127. -/
theorem rle_encode_segment_bounds (input : List Nat) (ps : Nat) (hps : 1 ≤ ps)
    (hdvd : ps ∣ input.length) :
    SegsOk ps (rle_encode input ps) :=
  segsOk_aux ps hps input.length input le_rfl hdvd

/-- C8 witness: segment bounds at the concrete buffer `[3,3,3,7]` with
`pixel_size = 1`. -/
theorem rle_encode_segment_bounds_witness :
    1 ≤ 1 ∧ 1 ∣ ([3, 3, 3, 7] : List Nat).length ∧
      SegsOk 1 (rle_encode [3, 3, 3, 7] 1) :=
  ⟨le_rfl, by decide, rle_encode_segment_bounds [3, 3, 3, 7] 1 le_rfl (by decide)⟩

/-- C9: `rle_decode` terminates on every input for `ps ≥ 1` — each loop
iteration consumes at least the tag byte, so `input.length` units of fuel
always suffice — and a repeat tag with count 0 (`0x80`) consumes its pixel
and emits nothing, without erroring. -/
theorem rle_decode_terminates (input : List Nat) (ps : Nat) (hps : 1 ≤ ps) :
    rle_decode_fuel input.length input ps = some (rle_decode input ps) ∧
    rle_decode (128 :: input) ps = rle_decode (input.drop ps) ps := by
  constructor
  · exact rle_decode_fuel_eq ps input.length input le_rfl
  · rw [rle_decode_cons, if_neg (by omega)]
    have h0 : (128 : Nat) &&& 127 = 0 := by decide
    simp [h0]

/-- C9 witness: termination fuel and the zero-count repeat at the concrete
input `[128, 7, 9]` with `pixel_size = 1`. -/
theorem rle_decode_terminates_witness :
    1 ≤ 1 ∧
    (rle_decode_fuel ([128, 7, 9] : List Nat).length [128, 7, 9] 1 =
      some (rle_decode [128, 7, 9] 1) ∧
     rle_decode (128 :: [128, 7, 9]) 1 = rle_decode (([128, 7, 9] : List Nat).drop 1) 1) :=
  ⟨le_rfl, rle_decode_terminates [128, 7, 9] 1 le_rfl⟩

/-- C10: a header written by `write_cm_metadata` from any metadata whose
fields fit their fields' widths passes `read_cm_metadata`'s magic and
version checks and, when the stored size equals the file length, parsing
recovers the width, height, colors, bpp, compression flag, data offset and
data length unchanged. -/
theorem cm_metadata_roundtrip (m : CmMetadata) (fsize : Nat)
    (hw : m.width < 65536) (hh : m.height < 65536) (hc : m.colors < 65536)
    (hb : m.bpp < 256) (hs : m.size < 4294967296)
    (ho : m.data_offset < 4294967296) (hl : m.data_length < 4294967296)
    (hfs : fsize = m.size) :
    read_cm_metadata (write_cm_metadata m) fsize =
      .ok ⟨m.width, m.height, m.colors, m.bpp, m.is_compressed,
           m.data_offset, m.data_length⟩ := by
  subst hfs
  unfold read_cm_metadata write_cm_metadata u32le u16le readBytes
  simp only [List.append_assoc, List.cons_append, List.nil_append]
  norm_num [List.take_succ_cons, List.drop_succ_cons, unpackU32, unpackU16,
    List.get?]
  have e1 : m.size % 256 + 256 * (m.size / 256 % 256) + 65536 * (m.size / 65536 % 256) +
      16777216 * (m.size / 16777216 % 256) = m.size := by omega
  have e2 : m.width % 256 + 256 * (m.width / 256 % 256) = m.width := by omega
  have e3 : m.height % 256 + 256 * (m.height / 256 % 256) = m.height := by omega
  have e4 : m.colors % 256 + 256 * (m.colors / 256 % 256) = m.colors := by omega
  have e5 : m.data_offset % 256 + 256 * (m.data_offset / 256 % 256) +
      65536 * (m.data_offset / 65536 % 256) +
      16777216 * (m.data_offset / 16777216 % 256) = m.data_offset := by omega
  have e6 : m.data_length % 256 + 256 * (m.data_length / 256 % 256) +
      65536 * (m.data_length / 65536 % 256) +
      16777216 * (m.data_length / 16777216 % 256) = m.data_length := by omega
  simp [e1, e2, e3, e4, e5, e6]

/-- C10 witness: the header round trip at a concrete metadata record
(size 100, 640x480, 256 colors, 8 bpp, compressed, data at 800 for 1200
bytes) with the file size equal to the stored size. -/
theorem cm_metadata_roundtrip_witness :
    (⟨100, 640, 480, 256, 8, true, 800, 1200⟩ : CmMetadata).width < 65536 ∧
    read_cm_metadata (write_cm_metadata ⟨100, 640, 480, 256, 8, true, 800, 1200⟩) 100 =
      .ok ⟨640, 480, 256, 8, true, 800, 1200⟩ :=
  ⟨by decide,
    cm_metadata_roundtrip ⟨100, 640, 480, 256, 8, true, 800, 1200⟩ 100
      (by decide) (by decide) (by decide) (by decide) (by decide) (by decide)
      (by decide) rfl⟩

/-- C5 counterexample: `oobCrashArchive` declares a single entry with
`offset = 44`, `size = 1` against a 44-byte file, so `offset + size`
exceeds the file length; but `try_open` raises `struct.error` inside
`detect_file_type` (evaluated before the placement check) instead of
returning the invalid result `None`. -/
theorem oob_entry_open_raises :
    try_open ['x', '.', 'a', 'r', 'c'] oobCrashArchive = .exn ∧
    unpackU32 (readBytes oobCrashArchive 32 4) = some 44 ∧
    unpackU32 (readBytes oobCrashArchive 36 4) = some 1 ∧
    oobCrashArchive.length < 44 + 1 := by
  decide

/-- C5 (amended): an out-of-bounds entry always invalidates the whole
archive — `try_open` never returns a successful index containing any entry
with `offset + size > fileSize`; on such inputs it returns the invalid
result or raises, but produces no partial index. -/
theorem try_open_placement (path : List Char) (f : List Nat) (r : List FileEntry)
    (h : try_open path f = .ok r) :
    ∀ e ∈ r, e.offset + e.size ≤ f.length := by
  obtain ⟨countN, next0, rest0, hL⟩ := try_open_ok_inv path f r h
  intro e he
  rcases entriesLoop_ok_forall f (isMaskArc path) countN countN 0 16 next0 [] rest0 [] r
      hL e he with hacc | hgood
  · simp at hacc
  · have h1 := hgood.1
    simpa [check_placement, decide_eq_true_eq] using h1

/-- C5 witness: the placement bound instantiated at `flatArchive`, which
resolves successfully. -/
theorem try_open_placement_witness :
    try_open ['x', '.', 'a', 'r', 'c'] flatArchive = .ok [⟨[65], 40, 4, .cm⟩] ∧
    ∀ e ∈ [(⟨[65], 40, 4, .cm⟩ : FileEntry)], e.offset + e.size ≤ flatArchive.length :=
  ⟨by decide,
    try_open_placement ['x', '.', 'a', 'r', 'c'] flatArchive
      [⟨[65], 40, 4, .cm⟩] (by decide)⟩

/-- C3 counterexample: packing a directory holding the single file `a` with
an empty payload and re-opening the produced archive does not succeed —
`detect_file_type` reads at the entry's offset, which is the end of the
file, and `struct.unpack` raises on the empty read. -/
theorem pack_small_file_open_raises :
    try_open ['o', 'u', 't', '.', 'a', 'r', 'c'] (pack_files [⟨[97], []⟩]) = .exn := by
  decide

/-- C3 (amended): packing a non-empty list of at most `0xFFFFF` files whose
extension-stripped names are 1-16 NUL-free ASCII bytes, whose payloads are
each at least 4 bytes, and whose archive fits in a `u32`, then resolving the
produced archive with `try_open` under any archive path, succeeds and yields
exactly one entry per file, whose name equals the stripped relative path and
whose `(offset, size)` byte range contains exactly the original payload
bytes. -/
theorem pack_then_open_roundtrip (path : List Char) (es : List PEntry)
    (hne : es ≠ []) (hcount : es.length ≤ 0xfffff)
    (hnames : ∀ e ∈ es, e.name ≠ [] ∧ e.name.length ≤ 16 ∧ ∀ b ∈ e.name, 0 < b ∧ b < 128)
    (hdata : ∀ e ∈ es, 4 ≤ e.data.length)
    (htot : 16 + 24 * es.length + sumSizes es < 4294967296) :
    ∃ r, try_open path (pack_files es) = .ok r ∧
      List.Forall₂ (fun fe pe => fe.name = pe.name ∧ fe.size = pe.data.length ∧
        readBytes (pack_files es) fe.offset fe.size = pe.data) r es := by
  have hN1 : 1 ≤ es.length := List.length_pos.mpr hne
  have hflen : (pack_files es).length = 16 + 24 * es.length + sumSizes es :=
    pack_files_length es (fun e he => (hnames e he).2.1)
  have hdropD : (pack_files es).drop (16 + 24 * es.length) = payload es := by
    rw [← List.drop_drop, pack_drop16,
      List.drop_left' (indexRecs_length es (fun e he => (hnames e he).2.1) _)]
  obtain ⟨r', hloop, hfa⟩ := entriesLoop_pack_spec (pack_files es) (isMaskArc path)
    es.length es 0 16 (16 + 24 * es.length) (es.length : Int) [] (payload es)
    (pack_drop16 es) hnames
    (goodAt_of_drop (pack_files es) (by omega) es (16 + 24 * es.length) hdropD hdata)
  refine ⟨r', ?_, hfa⟩
  unfold try_open
  rw [pack_read4 es, unpackU32_u32le _ (by omega)]
  dsimp only
  rw [if_neg (by rw [hflen]; exact fun h => h rfl)]
  rw [pack_read8 es, unpackI32_u32le es.length (by omega)]
  dsimp only
  rw [if_neg (by push_neg; constructor <;> [positivity; exact_mod_cast by omega])]
  rw [pack_read13 es, pack_read14 es]
  dsimp only [unpackU8, unpackU16]
  rw [if_neg ?hsize]
  case hsize =>
    push_neg
    push_cast
    simp [Int.toNat_natCast]
    omega
  rw [if_neg (by simp)]
  dsimp only
  simp only [Int.toNat_natCast, Option.getD]
  simpa using hloop

/-- C3 witness: the build-then-resolve round trip at two concrete files
`a` (payload `01 02 03 04`) and `b` (payload `43 4D 00 00`). -/
theorem pack_then_open_roundtrip_witness :
    ([⟨[97], [1, 2, 3, 4]⟩, ⟨[98], [67, 77, 0, 0]⟩] : List PEntry) ≠ [] ∧
    ([⟨[97], [1, 2, 3, 4]⟩, ⟨[98], [67, 77, 0, 0]⟩] : List PEntry).length ≤ 0xfffff ∧
    (∃ r : List FileEntry, try_open ['o', 'u', 't', '.', 'a', 'r', 'c']
        (pack_files [⟨[97], [1, 2, 3, 4]⟩, ⟨[98], [67, 77, 0, 0]⟩]) = .ok r ∧
      List.Forall₂ (fun fe pe => fe.name = pe.name ∧ fe.size = pe.data.length ∧
          readBytes (pack_files [⟨[97], [1, 2, 3, 4]⟩, ⟨[98], [67, 77, 0, 0]⟩])
            fe.offset fe.size = pe.data)
        r ([⟨[97], [1, 2, 3, 4]⟩, ⟨[98], [67, 77, 0, 0]⟩] : List PEntry)) :=
  ⟨by decide, by decide,
    pack_then_open_roundtrip ['o', 'u', 't', '.', 'a', 'r', 'c']
      [⟨[97], [1, 2, 3, 4]⟩, ⟨[98], [67, 77, 0, 0]⟩]
      (by decide) (by decide) (by decide) (by decide) (by decide)⟩
